import Mathlib

/-!
Verification of the retail-analytics pipeline (`retail_analysis.py`) and the
product-relabeling script (`update_products.py`).

The dataframe operations are shallowly embedded as functions on lists of
records.  Nullable cells (pandas `NaN`) are `Option` values; pandas semantics
that matter here are made explicit:

* `Series.unique` returns distinct values in order of first appearance
  (`seenOrder`);
* `groupby` with a null key silently drops those rows, and `Series.nunique`
  counts distinct non-null values (`nuniqueOpt`);
* `Series.sum` skips nulls (`optSum`);
* `nlargest`/`nsmallest` with the default `keep='first'` are stable sorts
  truncated to `n` (`sortBy`, an insertion sort that is stable by
  construction, so ties are resolved by order of appearance);
* `round(2)` rounds half to even, as numpy does (`roundHalfEven`);
* `groupby(sort=True)` lists group keys in ascending lexicographic order
  (`strLtB`, code-point comparison, as Python string comparison).
-/

namespace Retail

/-! ### Generic list helpers mirroring pandas primitives -/

/-- Distinct values of `l` in order of first appearance, with accumulator
`acc` of values already seen; models `pandas.Series.unique`. -/
def seenOrderAux (acc : List String) : List String → List String
  | [] => acc
  | k :: ks => seenOrderAux (if k ∈ acc then acc else acc ++ [k]) ks

/-- Distinct values of `l` in order of first appearance. -/
def seenOrder (l : List String) : List String := seenOrderAux [] l

/-- Insert `x` into `l` immediately before the first element `h` with
`lt x h`; used by the stable insertion sort `sortBy`. -/
def insertBy (lt : α → α → Bool) (x : α) : List α → List α
  | [] => [x]
  | h :: t => if lt x h then x :: h :: t else h :: insertBy lt x t

/-- Stable insertion sort by the strict comparator `lt`: elements are
processed in order and each is placed after all earlier elements it does not
strictly precede, so ties keep order of appearance — exactly the tie rule of
`nlargest`/`nsmallest` with `keep='first'` and of a stable sort. -/
def sortBy (lt : α → α → Bool) (l : List α) : List α :=
  l.foldl (fun acc x => insertBy lt x acc) []

/-- Sum of a column with nulls: pandas `Series.sum` skips `NaN`. -/
def optSum (l : List (Option ℚ)) : ℚ := (l.filterMap id).sum

/-- Count of distinct non-null values: pandas `Series.nunique`. -/
def nuniqueOpt (l : List (Option ℕ)) : ℕ := (l.filterMap id).dedup.length

/-- Null-propagating product: `NaN * x = NaN` in pandas. -/
def mulOpt : Option ℚ → Option ℚ → Option ℚ
  | some a, some b => some (a * b)
  | _, _ => none

/-- Lexicographic strict order on code-point lists (Python string `<`). -/
def lexLtB : List Char → List Char → Bool
  | [], [] => false
  | [], _ :: _ => true
  | _ :: _, [] => false
  | a :: as, b :: bs =>
    if a.val < b.val then true else if b.val < a.val then false else lexLtB as bs

/-- Strict lexicographic order on strings by code points, the order in which
`groupby(sort=True)` lists its string keys. -/
def strLtB (a b : String) : Bool := lexLtB a.data b.data

/-- Round half to even, numpy's rounding rule. -/
def roundHalfEven (x : ℚ) : ℤ :=
  if x - ⌊x⌋ < 1/2 then ⌊x⌋
  else if (1:ℚ)/2 < x - ⌊x⌋ then ⌊x⌋ + 1
  else if Even ⌊x⌋ then ⌊x⌋ else ⌊x⌋ + 1

/-- Round to two decimal places: pandas `.round(2)`. -/
def round2 (x : ℚ) : ℚ := (roundHalfEven (x * 100) : ℚ) / 100

/-! ### Data model

A loaded transaction record, after the renames of `load_and_preprocess_data`:
`Signal_Strength` is the quantity, `SNR` the unit price,
`Effective_Throughput` the derived amount, `Receiver_ID` the nullable
customer id and `Transmission_Zone` the region. -/

/-- Calendar timestamp; only year and month feed the analyses
(`dt.quarter` and `dt.year`). -/
structure Date where
  year : ℕ
  month : ℕ
deriving DecidableEq

/-- A record of the raw CSV after type coercion: `to_numeric(errors='coerce')`
turned unparseable numerics into null, `to_datetime(errors='coerce')` turned
unparseable timestamps into null. -/
structure RawRow where
  Packet_ID : String
  Sensor_ID : String
  Sensor_Type : String
  Signal_Strength : Option ℚ
  SNR : Option ℚ
  InvoiceDate : Option Date
  Receiver_ID : Option ℕ
  Transmission_Zone : String
deriving DecidableEq

/-- A record of the loaded table: the timestamp is valid by construction and
`Effective_Throughput` is the derived amount column. -/
structure Row where
  Packet_ID : String
  Sensor_ID : String
  Sensor_Type : String
  Signal_Strength : Option ℚ
  SNR : Option ℚ
  Effective_Throughput : Option ℚ
  InvoiceDate : Date
  Receiver_ID : Option ℕ
  Transmission_Zone : String
deriving DecidableEq

/-- Conversion of a coerced raw record with valid timestamp `d` into a loaded
record: every field is carried over and
`Effective_Throughput = Signal_Strength * SNR` (null-propagating). -/
def loadRow (rr : RawRow) (d : Date) : Row :=
  { Packet_ID := rr.Packet_ID
    Sensor_ID := rr.Sensor_ID
    Sensor_Type := rr.Sensor_Type
    Signal_Strength := rr.Signal_Strength
    SNR := rr.SNR
    Effective_Throughput := mulOpt rr.Signal_Strength rr.SNR
    InvoiceDate := d
    Receiver_ID := rr.Receiver_ID
    Transmission_Zone := rr.Transmission_Zone }

/-- The loader `load_and_preprocess_data`: derive the amount column, then
`dropna(subset=['InvoiceDate'])` — rows whose timestamp failed to parse are
dropped, every other row is kept. -/
def load_and_preprocess_data (l : List RawRow) : List Row :=
  l.filterMap fun rr => rr.InvoiceDate.map (loadRow rr)

/-! ### Aggregators -/

/-- Total amount of a list of records, nulls skipped. -/
def amtSum (rows : List Row) : ℚ := optSum (rows.map (·.Effective_Throughput))

/-- Grand total of the amount column over the whole table. -/
def grandTotal (rows : List Row) : ℚ := amtSum rows

/-- Group keys of `groupby('Transmission_Zone')`: the distinct regions in
ascending order. -/
def zoneKeys (rows : List Row) : List String :=
  sortBy strLtB (seenOrder (rows.map (·.Transmission_Zone)))

/-- Aggregated amount of one region. -/
def zoneSum (rows : List Row) (z : String) : ℚ :=
  amtSum (rows.filter (fun r => r.Transmission_Zone == z))

/-- The `country_purchases` frame of `analyze_country_performance`:
one (region, total amount) pair per distinct region. -/
def country_purchases (rows : List Row) : List (String × ℚ) :=
  (zoneKeys rows).map fun z => (z, zoneSum rows z)

/-- `DataFrame.nlargest(10, col)`: sort descending by value, ties by order of
appearance (`keep='first'`), take 10. -/
def nlargest10 (l : List (String × ℚ)) : List (String × ℚ) :=
  (sortBy (fun a b => decide (b.2 < a.2)) l).take 10

/-- `DataFrame.nsmallest(10, col)`: sort ascending by value, ties by order of
appearance, take 10. -/
def nsmallest10 (l : List (String × ℚ)) : List (String × ℚ) :=
  (sortBy (fun a b => decide (a.2 < b.2)) l).take 10

/-- `top_countries` of `analyze_country_performance`. -/
def top_countries (rows : List Row) : List (String × ℚ) :=
  nlargest10 (country_purchases rows)

/-- `bottom_countries` of `analyze_country_performance`. -/
def bottom_countries (rows : List Row) : List (String × ℚ) :=
  nsmallest10 (country_purchases rows)

/-- `customer_freq` of `analyze_customer_behavior`:
`groupby('Receiver_ID').size()` — the number of records of one customer; rows
with a null customer id belong to no group. -/
def customer_freq (rows : List Row) (c : ℕ) : ℕ :=
  (rows.filter (fun r => r.Receiver_ID == some c)).length

/-! ### Cohort engine (`analyze_cohort_retention`) -/

/-- `dt.quarter`: calendar quarter of a month (1-4). -/
def quarterOfMonth (m : ℕ) : ℕ := (m + 2) / 3

/-- The time-bucket key `'Q' + quarter + '/' + year` of a record date. -/
def quarterKey (d : Date) : String :=
  "Q" ++ Nat.repr (quarterOfMonth d.month) ++ "/" ++ Nat.repr d.year

/-- The `InvoiceQuarter` column. -/
def invoiceQuarters (rows : List Row) : List String :=
  rows.map (fun r => quarterKey r.InvoiceDate)

/-- `quarters_map`: `dict(zip(unique, range(len(unique))))` — the distinct
quarter keys in order of first appearance; a key's dense index is its
position in this list. -/
def quarters_map (rows : List Row) : List String :=
  seenOrder (invoiceQuarters rows)

/-- The `InvoiceQuarterID` column: position of the record's quarter key in
the map `qm`. -/
def invoiceQuarterID (qm : List String) (r : Row) : ℕ :=
  List.indexOf (quarterKey r.InvoiceDate) qm

/-- The `CohortQuarterID` column: `groupby('Receiver_ID')['InvoiceQuarterID']
.transform('min')` — the minimum bucket index over the customer's records;
null (pandas `NaN`) on rows whose customer id is null, because `groupby`
drops null keys. -/
def cohortQuarterID (qm : List String) (rows : List Row) (r : Row) : Option ℕ :=
  match r.Receiver_ID with
  | none => none
  | some c =>
      ((rows.filter (fun x => x.Receiver_ID == some c)).map (invoiceQuarterID qm)).min?

/-- The `CohortIndex` column: `InvoiceQuarterID - CohortQuarterID`
(null-propagating integer subtraction). -/
def cohortIndex (qm : List String) (rows : List Row) (r : Row) : Option ℤ :=
  (cohortQuarterID qm rows r).map (fun c => (invoiceQuarterID qm r : ℤ) - c)

/-- The records of one cell of `groupby(['CohortQuarterID','CohortIndex'])`;
rows whose keys are null belong to no cell. -/
def cellRows (qm : List String) (rows : List Row) (c : ℕ) (i : ℤ) : List Row :=
  rows.filter fun r =>
    cohortQuarterID qm rows r == some c && cohortIndex qm rows r == some i

/-- `Customer_Count` of one cell: distinct non-null customer ids
(`pd.Series.nunique`). -/
def cellCount (qm : List String) (rows : List Row) (c : ℕ) (i : ℤ) : ℕ :=
  nuniqueOpt ((cellRows qm rows c i).map (·.Receiver_ID))

/-- One cell of the final retention matrix: divide the cell count by the
cohort's offset-0 count, scale to percent, round to 2 decimals; empty cells
stay undefined (pandas `NaN`). -/
def retention (rows : List Row) (c : ℕ) (i : ℤ) : Option ℚ :=
  if cellCount (quarters_map rows) rows c i = 0 then none
  else some (round2 (100 * (cellCount (quarters_map rows) rows c i : ℚ) /
    (cellCount (quarters_map rows) rows c 0 : ℚ)))

/-! ### Column effects of the analysis functions on the shared dataframe -/

/-- Columns of the loaded dataframe after the renames and the derived
amount column. -/
def loadedCols : List String :=
  ["Packet_ID", "Sensor_ID", "Sensor_Type", "Signal_Strength", "SNR",
   "InvoiceDate", "Receiver_ID", "Transmission_Zone", "Effective_Throughput"]

/-- Effect of `df[name] = ...` on the column list: a new column is appended,
an existing one overwritten in place. -/
def setCol (cols : List String) (name : String) : List String :=
  if name ∈ cols then cols else cols ++ [name]

/-- Columns of the shared dataframe after `analyze_cohort_retention`, which
assigns five derived columns on `df` itself. -/
def analyze_cohort_retention_cols (cols : List String) : List String :=
  setCol (setCol (setCol (setCol (setCol cols "InvoiceQuarter")
    "InvoiceQuarterID") "CohortQuarterID") "CohortQuarter") "CohortIndex"

/-- Columns of the shared dataframe after `analyze_timeline_sales`, which
assigns two derived columns on `df` itself. -/
def analyze_timeline_sales_cols (cols : List String) : List String :=
  setCol (setCol cols "InvoiceQuarter") "InvoiceMonth"

/-- `analyze_sales_trends` only builds new frames; `df` keeps its columns. -/
def analyze_sales_trends_cols (cols : List String) : List String := cols

/-- `analyze_customer_behavior` only builds new frames. -/
def analyze_customer_behavior_cols (cols : List String) : List String := cols

/-- `analyze_country_performance` only builds new frames. -/
def analyze_country_performance_cols (cols : List String) : List String := cols

/-- `analyze_product_performance` only builds new frames. -/
def analyze_product_performance_cols (cols : List String) : List String := cols

/-- A record of the shared dataframe after `analyze_cohort_retention` ran:
the original record plus the five derived cells it assigns in place. -/
structure CohortAugRow where
  base : Row
  InvoiceQuarter : String
  InvoiceQuarterID : ℕ
  CohortQuarterID : Option ℕ
  CohortIndex : Option ℤ

/-- Row-level effect of `analyze_cohort_retention` on the shared dataframe. -/
def cohortAugment (rows : List Row) : List CohortAugRow :=
  rows.map fun r =>
    { base := r
      InvoiceQuarter := quarterKey r.InvoiceDate
      InvoiceQuarterID := invoiceQuarterID (quarters_map rows) r
      CohortQuarterID := cohortQuarterID (quarters_map rows) rows r
      CohortIndex := cohortIndex (quarters_map rows) rows r }

/-- A record of the shared dataframe after `analyze_timeline_sales` ran:
the original record plus the two derived cells it assigns in place
(`InvoiceMonth` is the year-month period). -/
structure TimelineAugRow where
  base : Row
  InvoiceQuarter : String
  InvoiceMonth : ℕ × ℕ

/-- Row-level effect of `analyze_timeline_sales` on the shared dataframe. -/
def timelineAugment (rows : List Row) : List TimelineAugRow :=
  rows.map fun r =>
    { base := r
      InvoiceQuarter := quarterKey r.InvoiceDate
      InvoiceMonth := (r.InvoiceDate.year, r.InvoiceDate.month) }

/-! ### The relabeling script (`update_products.py`) -/

/-- A record of the raw retail CSV read by `update_products.py`. -/
structure ProdRow where
  Invoice : String
  StockCode : String
  Description : String
  Quantity : Option ℚ
  Price : Option ℚ
  InvoiceDate : String
  CustomerID : Option ℕ
  Country : String
deriving DecidableEq

/-- The script's only data transformation:
`df['Description'] = df['Description'].map(product_mapping)` where
`product_mapping` covers every distinct description. -/
def update_products (mapping : String → String) (rows : List ProdRow) : List ProdRow :=
  rows.map fun r => { r with Description := mapping r.Description }

end Retail

namespace Retail

/-! ### Concrete sample tables -/

/-- A transaction of customer 1 in Q1/2010 (bucket 0). -/
def row1 : Row :=
  { Packet_ID := "", Sensor_ID := "", Sensor_Type := "", Signal_Strength := none,
    SNR := none, Effective_Throughput := none, InvoiceDate := ⟨2010, 1⟩,
    Receiver_ID := some 1, Transmission_Zone := "" }

/-- A transaction of customer 2 in Q1/2010 (bucket 0). -/
def row2 : Row := { row1 with InvoiceDate := ⟨2010, 2⟩, Receiver_ID := some 2 }

/-- A transaction of customer 3 in Q2/2010 (bucket 1). -/
def row3 : Row := { row1 with InvoiceDate := ⟨2010, 4⟩, Receiver_ID := some 3 }

/-- A second transaction of customer 1, in Q2/2010 (bucket 1). -/
def row4 : Row := { row1 with InvoiceDate := ⟨2010, 5⟩, Receiver_ID := some 1 }

/-- The spec's worked example: first transactions in buckets 0, 0, 1 and the
first customer also transacting in bucket 1. -/
def exampleRows : List Row := [row1, row2, row3, row4]

/-- A raw record with valid timestamp whose numeric fields failed to parse. -/
def rawGood : RawRow :=
  { Packet_ID := "P1", Sensor_ID := "S1", Sensor_Type := "T1",
    Signal_Strength := none, SNR := none, InvoiceDate := some ⟨2010, 1⟩,
    Receiver_ID := some 1, Transmission_Zone := "A" }

/-- A raw record whose timestamp failed to parse. -/
def rawBad : RawRow := { rawGood with Packet_ID := "P2", InvoiceDate := none }

/-- A two-record raw input exercising both coercion failures. -/
def rawList : List RawRow := [rawGood, rawBad]

/-! ### C3, C4, C7, C8 -/

/-- C3: on the concrete input of three customers with first transactions in
buckets 0, 0, 1 and the first customer also transacting in bucket 1, the
cohort engine counts 2 distinct customers at (cohort 0, offset 0) and 1 at
(cohort 0, offset 1) — distinct customers, not raw transactions — giving
retention 50.00 at (cohort 0, offset 1). -/
theorem cohort_example_three_customers :
    cellCount (quarters_map exampleRows) exampleRows 0 0 = 2 ∧
    cellCount (quarters_map exampleRows) exampleRows 0 1 = 1 ∧
    retention exampleRows 0 1 = some 50 := by
  have h0 : cellCount (quarters_map exampleRows) exampleRows 0 0 = 2 := by decide
  have h1 : cellCount (quarters_map exampleRows) exampleRows 0 1 = 1 := by decide
  refine ⟨h0, h1, ?_⟩
  rw [retention, h1, h0]
  norm_num [round2, roundHalfEven]

/-- C4 counterexample: `analyze_cohort_retention` does not leave the loaded
dataframe's columns unchanged — it assigns five derived columns on the
shared dataframe in place. -/
theorem analysis_mutates_shared_df :
    analyze_cohort_retention_cols loadedCols ≠ loadedCols := by decide

/-- C4 amended: the chart-producing aggregators build only new frames and
leave the shared dataframe untouched, and the cohort and timeline analyses
preserve every loaded record unchanged (and hence all loaded column values),
but append derived columns to the shared dataframe in place. -/
theorem analyses_frame_effect (cols : List String) (rows : List Row) :
    analyze_sales_trends_cols cols = cols ∧
    analyze_customer_behavior_cols cols = cols ∧
    analyze_country_performance_cols cols = cols ∧
    analyze_product_performance_cols cols = cols ∧
    (cohortAugment rows).map CohortAugRow.base = rows ∧
    (timelineAugment rows).map TimelineAugRow.base = rows ∧
    analyze_cohort_retention_cols loadedCols = loadedCols ++
      ["InvoiceQuarter", "InvoiceQuarterID", "CohortQuarterID",
       "CohortQuarter", "CohortIndex"] ∧
    analyze_timeline_sales_cols loadedCols = loadedCols ++
      ["InvoiceQuarter", "InvoiceMonth"] := by
  refine ⟨rfl, rfl, rfl, rfl, ?_, ?_, by decide, by decide⟩
  · simp [cohortAugment, List.map_map, Function.comp_def]
  · simp [timelineAugment, List.map_map, Function.comp_def]

/-- C7: the relabeling script changes only the item description column —
every output row keeps the quantity, unit price, and recomputable amount of
the corresponding input row, and the table keeps its length. -/
theorem update_products_only_relabels (mapping : String → String)
    (rows : List ProdRow) (i : ℕ) :
    ((update_products mapping rows)[i]?.map (·.Quantity) = rows[i]?.map (·.Quantity)) ∧
    ((update_products mapping rows)[i]?.map (·.Price) = rows[i]?.map (·.Price)) ∧
    ((update_products mapping rows)[i]?.map (fun r => mulOpt r.Quantity r.Price)
        = rows[i]?.map (fun r => mulOpt r.Quantity r.Price)) ∧
    (update_products mapping rows).length = rows.length := by
  refine ⟨?_, ?_, ?_, by simp [update_products]⟩ <;>
    simp [update_products, List.getElem?_map, Option.map_map, Function.comp_def]

/-- Auxiliary: the loader keeps exactly the rows with a parseable date. -/
theorem load_length (l : List RawRow) :
    (load_and_preprocess_data l).length
      = (l.filter (fun rr => rr.InvoiceDate.isSome)).length := by
  induction l with
  | nil => rfl
  | cons rr t ih =>
      rcases h : rr.InvoiceDate with _ | d <;>
        simp [load_and_preprocess_data, List.filterMap_cons, List.filter_cons, h] <;>
        simpa [load_and_preprocess_data] using ih

/-- Auxiliary: a raw record with a valid timestamp is loaded as `loadRow`. -/
theorem loadRow_mem {l : List RawRow} {rr : RawRow} (hm : rr ∈ l) {d : Date}
    (hd : rr.InvoiceDate = some d) :
    loadRow rr d ∈ load_and_preprocess_data l := by
  refine List.mem_filterMap.mpr ⟨rr, hm, ?_⟩
  rw [hd]; rfl

/-- C8: type-coercion failures become missing values without raising — a
record whose numerics failed to parse is kept (numeric field and derived
amount null), a record whose timestamp failed to parse is dropped, every
loaded row stems from a raw row with a valid timestamp with all fields
carried over, and the derived amount equals quantity * unit price whenever
both are non-null. -/
theorem loader_coercion_semantics (l : List RawRow) :
    (load_and_preprocess_data l).length
        = (l.filter (fun rr => rr.InvoiceDate.isSome)).length ∧
    (∀ rr ∈ l, ∀ d : Date, rr.InvoiceDate = some d →
        loadRow rr d ∈ load_and_preprocess_data l) ∧
    (∀ row ∈ load_and_preprocess_data l,
        ∃ rr ∈ l, rr.InvoiceDate = some row.InvoiceDate ∧
          row = loadRow rr row.InvoiceDate) ∧
    (∀ row ∈ load_and_preprocess_data l, ∀ q p : ℚ,
        row.Signal_Strength = some q → row.SNR = some p →
        row.Effective_Throughput = some (q * p)) := by
  have origin : ∀ row ∈ load_and_preprocess_data l,
      ∃ rr ∈ l, rr.InvoiceDate = some row.InvoiceDate ∧
        row = loadRow rr row.InvoiceDate := by
    intro row hrow
    rcases List.mem_filterMap.mp hrow with ⟨rr, hrr, hmap⟩
    rcases Option.map_eq_some'.mp hmap with ⟨d, hd, hload⟩
    subst hload
    exact ⟨rr, hrr, hd, rfl⟩
  refine ⟨load_length l, fun rr hm d hd => loadRow_mem hm hd, origin, ?_⟩
  intro row hrow q p hq hp
  rcases origin row hrow with ⟨rr, -, -, hrow_eq⟩
  have hq' : rr.Signal_Strength = some q := by
    rw [hrow_eq] at hq; exact hq
  have hp' : rr.SNR = some p := by
    rw [hrow_eq] at hp; exact hp
  rw [hrow_eq]
  show mulOpt rr.Signal_Strength rr.SNR = some (q * p)
  rw [hq', hp']; rfl

/-- C8 witness: on the concrete two-record raw input, the record with the
valid timestamp and unparseable numerics is loaded (with null numeric and
amount fields), while the record with the bad timestamp is dropped. -/
theorem loader_coercion_semantics_witness :
    (rawGood ∈ rawList ∧ rawGood.InvoiceDate = some ⟨2010, 1⟩) ∧
    loadRow rawGood ⟨2010, 1⟩ ∈ load_and_preprocess_data rawList :=
  ⟨⟨by decide, rfl⟩,
    (loader_coercion_semantics rawList).2.1 rawGood (by decide) ⟨2010, 1⟩ rfl⟩

end Retail

namespace Retail

/-! ### Minimum facts for `transform('min')` -/

/-- Folded minimum of naturals: it bounds the seed and every element, and is
attained by the seed or an element. -/
theorem foldl_min_spec (as : List ℕ) (a : ℕ) :
    (as.foldl min a ≤ a) ∧ (∀ b ∈ as, as.foldl min a ≤ b) ∧
    (as.foldl min a = a ∨ as.foldl min a ∈ as) := by
  induction as generalizing a with
  | nil => exact ⟨le_refl a, by simp, Or.inl rfl⟩
  | cons x t ih =>
      obtain ⟨h1, h2, h3⟩ := ih (min a x)
      refine ⟨le_trans h1 (min_le_left a x), ?_, ?_⟩
      · intro b hb
        rcases List.mem_cons.mp hb with hb | hb
        · subst hb
          exact le_trans h1 (min_le_right _ _)
        · exact h2 b hb
      · rcases h3 with h3 | h3
        · rcases min_choice a x with hm | hm
          · exact Or.inl (h3.trans hm)
          · exact Or.inr (List.mem_cons.mpr (Or.inl (h3.trans hm)))
        · exact Or.inr (List.mem_cons.mpr (Or.inr h3))

/-- Specification of `List.min?` on naturals. -/
theorem min?_spec {l : List ℕ} {m : ℕ} (h : l.min? = some m) :
    m ∈ l ∧ ∀ b ∈ l, m ≤ b := by
  cases l with
  | nil => simp [List.min?] at h
  | cons x xs =>
      obtain ⟨h1, h2, h3⟩ := foldl_min_spec xs x
      have hm : xs.foldl min x = m := by simpa [List.min?] using h
      subst hm
      refine ⟨?_, ?_⟩
      · rcases h3 with h3 | h3
        · exact List.mem_cons.mpr (Or.inl h3)
        · exact List.mem_cons.mpr (Or.inr h3)
      · intro b hb
        rcases List.mem_cons.mp hb with hb | hb
        · exact hb ▸ h1
        · exact h2 b hb

/-- A non-empty list of naturals has a minimum. -/
theorem min?_isSome {l : List ℕ} (h : l ≠ []) : ∃ m, l.min? = some m := by
  cases l with
  | nil => exact absurd rfl h
  | cons x xs => exact ⟨xs.foldl min x, by simp [List.min?]⟩

/-! ### Structure of `CohortQuarterID` -/

/-- Rows with a null customer id get a null cohort, because `groupby` drops
null keys. -/
theorem cohortQuarterID_eq_none {qm : List String} {rows : List Row} {r : Row}
    (h : r.Receiver_ID = none) : cohortQuarterID qm rows r = none := by
  simp [cohortQuarterID, h]

/-- The cohort value only depends on the record's customer id. -/
theorem cohortQuarterID_congr {qm : List String} {rows : List Row} {x r : Row}
    {cu : ℕ} (hx : x.Receiver_ID = some cu) (hr : r.Receiver_ID = some cu) :
    cohortQuarterID qm rows x = cohortQuarterID qm rows r := by
  simp [cohortQuarterID, hx, hr]

/-- A record with a non-null customer id has a cohort. -/
theorem cohortQuarterID_isSome {qm : List String} {rows : List Row} {r : Row}
    {cu : ℕ} (hr : r ∈ rows) (hrid : r.Receiver_ID = some cu) :
    ∃ c, cohortQuarterID qm rows r = some c := by
  have hmem : r ∈ rows.filter (fun x => x.Receiver_ID == some cu) :=
    List.mem_filter.mpr ⟨hr, by simp [hrid]⟩
  have hne : (rows.filter (fun x => x.Receiver_ID == some cu)).map
      (invoiceQuarterID qm) ≠ [] := by
    intro hnil
    exact (List.map_eq_nil_iff.mp hnil ▸ List.not_mem_nil r) hmem
  obtain ⟨m, hm⟩ := min?_isSome hne
  exact ⟨m, by simp [cohortQuarterID, hrid, hm]⟩

/-- The cohort of a customer is the minimum bucket index over that
customer's records: it is attained by one of them and bounds all of them. -/
theorem cohortQuarterID_spec {qm : List String} {rows : List Row} {r : Row}
    {cu : ℕ} (hrid : r.Receiver_ID = some cu) {c : ℕ}
    (h : cohortQuarterID qm rows r = some c) :
    (∃ x ∈ rows, x.Receiver_ID = some cu ∧ invoiceQuarterID qm x = c) ∧
    (∀ x ∈ rows, x.Receiver_ID = some cu → c ≤ invoiceQuarterID qm x) := by
  have h' : ((rows.filter (fun x => x.Receiver_ID == some cu)).map
      (invoiceQuarterID qm)).min? = some c := by
    simpa [cohortQuarterID, hrid] using h
  obtain ⟨hmem, hbound⟩ := min?_spec h'
  constructor
  · rcases List.mem_map.mp hmem with ⟨x, hx, hxc⟩
    rcases List.mem_filter.mp hx with ⟨hxrows, hxid⟩
    exact ⟨x, hxrows, by simpa using hxid, hxc⟩
  · intro x hx hxid
    exact hbound _ (List.mem_map.mpr
      ⟨x, List.mem_filter.mpr ⟨hx, by simp [hxid]⟩, rfl⟩)

/-- C1: for every loaded record with a non-null customer id, the cohort
bucket equals the minimum bucket index over that customer's records, hence
it is at most the record's own bucket index and the record's `CohortIndex`
is non-negative. -/
theorem cohort_bucket_is_min (rows : List Row) (r : Row) (hr : r ∈ rows)
    (c : ℕ) (hc : r.Receiver_ID = some c) :
    ∃ m, cohortQuarterID (quarters_map rows) rows r = some m ∧
      (∃ x ∈ rows, x.Receiver_ID = some c ∧
        invoiceQuarterID (quarters_map rows) x = m) ∧
      (∀ x ∈ rows, x.Receiver_ID = some c →
        m ≤ invoiceQuarterID (quarters_map rows) x) ∧
      m ≤ invoiceQuarterID (quarters_map rows) r ∧
      cohortIndex (quarters_map rows) rows r
        = some ((invoiceQuarterID (quarters_map rows) r : ℤ) - (m : ℤ)) ∧
      0 ≤ (invoiceQuarterID (quarters_map rows) r : ℤ) - (m : ℤ) := by
  obtain ⟨m, hm⟩ := @cohortQuarterID_isSome (quarters_map rows) _ _ _ hr hc
  obtain ⟨hatt, hbound⟩ := cohortQuarterID_spec hc hm
  have hle : m ≤ invoiceQuarterID (quarters_map rows) r := hbound r hr hc
  refine ⟨m, hm, hatt, hbound, hle, ?_, ?_⟩
  · simp [cohortIndex, hm]
  · have : (m : ℤ) ≤ (invoiceQuarterID (quarters_map rows) r : ℤ) :=
      Int.ofNat_le.mpr hle
    omega

/-- C1 witness: the first record of the worked example has customer 1,
whose cohort is bucket 0. -/
theorem cohort_bucket_is_min_witness :
    (row1 ∈ exampleRows ∧ row1.Receiver_ID = some 1) ∧
    ∃ m, cohortQuarterID (quarters_map exampleRows) exampleRows row1 = some m ∧
      (∃ x ∈ exampleRows, x.Receiver_ID = some 1 ∧
        invoiceQuarterID (quarters_map exampleRows) x = m) ∧
      (∀ x ∈ exampleRows, x.Receiver_ID = some 1 →
        m ≤ invoiceQuarterID (quarters_map exampleRows) x) ∧
      m ≤ invoiceQuarterID (quarters_map exampleRows) row1 ∧
      cohortIndex (quarters_map exampleRows) exampleRows row1
        = some ((invoiceQuarterID (quarters_map exampleRows) row1 : ℤ) - (m : ℤ)) ∧
      0 ≤ (invoiceQuarterID (quarters_map exampleRows) row1 : ℤ) - (m : ℤ) :=
  ⟨⟨by decide, rfl⟩, cohort_bucket_is_min exampleRows row1 (by decide) 1 rfl⟩

end Retail

namespace Retail

/-- C2: every cohort that appears as a row of the retention matrix has a
non-empty offset-0 cell, its retention value at offset 0 is exactly 100.00
after normalization and rounding, and no cell sits at a negative offset (so
offset 0 is the matrix's first column). -/
theorem retention_offset0_is_100 (rows : List Row) (c : ℕ)
    (hc : ∃ r ∈ rows, cohortQuarterID (quarters_map rows) rows r = some c) :
    1 ≤ cellCount (quarters_map rows) rows c 0 ∧
    retention rows c 0 = some 100 ∧
    (∀ i : ℤ, cellCount (quarters_map rows) rows c i ≠ 0 → 0 ≤ i) := by
  obtain ⟨r, hr, hcoh⟩ := hc
  rcases hrid : r.Receiver_ID with _ | cu
  · rw [cohortQuarterID_eq_none hrid] at hcoh
    exact absurd hcoh (by simp)
  obtain ⟨⟨x, hx, hxid, hxiq⟩, hbound⟩ := cohortQuarterID_spec hrid hcoh
  have hxcoh : cohortQuarterID (quarters_map rows) rows x = some c := by
    rw [cohortQuarterID_congr hxid hrid]; exact hcoh
  have hxindex : cohortIndex (quarters_map rows) rows x = some 0 := by
    simp [cohortIndex, hxcoh, hxiq]
  have hxcell : x ∈ cellRows (quarters_map rows) rows c 0 :=
    List.mem_filter.mpr ⟨hx, by simp [hxcoh, hxindex]⟩
  have hcell : 1 ≤ cellCount (quarters_map rows) rows c 0 := by
    have hmem : cu ∈ (((cellRows (quarters_map rows) rows c 0).map
        (·.Receiver_ID)).filterMap id) :=
      List.mem_filterMap.mpr ⟨some cu, List.mem_map.mpr ⟨x, hxcell, hxid⟩, rfl⟩
    have : cu ∈ (((cellRows (quarters_map rows) rows c 0).map
        (·.Receiver_ID)).filterMap id).dedup := List.mem_dedup.mpr hmem
    exact List.length_pos.mpr (List.ne_nil_of_mem this)
  have hne : cellCount (quarters_map rows) rows c 0 ≠ 0 := by omega
  refine ⟨hcell, ?_, ?_⟩
  · rw [retention, if_neg hne]
    have hnne : ((cellCount (quarters_map rows) rows c 0 : ℚ)) ≠ 0 :=
      Nat.cast_ne_zero.mpr hne
    rw [mul_div_assoc, div_self hnne, mul_one]
    norm_num [round2, roundHalfEven]
  · intro i hi
    have hnil : cellRows (quarters_map rows) rows c i ≠ [] := by
      intro hnil
      exact hi (by simp [cellCount, hnil, nuniqueOpt])
    obtain ⟨y, hy⟩ := List.exists_mem_of_ne_nil _ hnil
    rcases List.mem_filter.mp hy with ⟨hyrows, hycond⟩
    rcases (Bool.and_eq_true _ _).mp hycond with ⟨hyc, hyi⟩
    have hyc' : cohortQuarterID (quarters_map rows) rows y = some c :=
      beq_iff_eq.mp hyc
    have hyi' : cohortIndex (quarters_map rows) rows y = some i :=
      beq_iff_eq.mp hyi
    rcases hyid : y.Receiver_ID with _ | cuy
    · rw [cohortQuarterID_eq_none hyid] at hyc'
      exact absurd hyc' (by simp)
    have hley : c ≤ invoiceQuarterID (quarters_map rows) y :=
      (cohortQuarterID_spec hyid hyc').2 y hyrows hyid
    have : ((invoiceQuarterID (quarters_map rows) y : ℤ) - (c : ℤ)) = i := by
      simpa [cohortIndex, hyc'] using hyi'
    omega

/-- C2 witness: in the worked example, cohort 0 exists and its offset-0
retention is 100. -/
theorem retention_offset0_is_100_witness :
    (∃ r ∈ exampleRows,
        cohortQuarterID (quarters_map exampleRows) exampleRows r = some 0) ∧
    (1 ≤ cellCount (quarters_map exampleRows) exampleRows 0 0 ∧
      retention exampleRows 0 0 = some 100 ∧
      (∀ i : ℤ, cellCount (quarters_map exampleRows) exampleRows 0 i ≠ 0 →
        0 ≤ i)) :=
  ⟨by decide, retention_offset0_is_100 exampleRows 0 (by decide)⟩

end Retail

namespace Retail

/-! ### Facts about `seenOrder` -/

/-- The first-seen list stays duplicate-free. -/
theorem seenOrderAux_nodup (l : List String) :
    ∀ acc : List String, acc.Nodup → (seenOrderAux acc l).Nodup := by
  induction l with
  | nil => intro acc h; exact h
  | cons k ks ih =>
      intro acc h
      by_cases hk : k ∈ acc
      · simpa [seenOrderAux, hk] using ih acc h
      · have hnd : (acc ++ [k]).Nodup := by
          simp [List.nodup_append, h, hk]
        simpa [seenOrderAux, hk] using ih (acc ++ [k]) hnd

/-- Membership in the first-seen list. -/
theorem mem_seenOrderAux (l : List String) :
    ∀ (acc : List String) (a : String),
      a ∈ seenOrderAux acc l ↔ a ∈ acc ∨ a ∈ l := by
  induction l with
  | nil => intro acc a; simp [seenOrderAux]
  | cons k ks ih =>
      intro acc a
      by_cases hk : k ∈ acc
      · rw [seenOrderAux, if_pos hk, ih]
        simp only [List.mem_cons]
        constructor
        · rintro (h | h) <;> tauto
        · rintro (h | h | h)
          · tauto
          · subst h; tauto
          · tauto
      · rw [seenOrderAux, if_neg hk, ih]
        simp only [List.mem_append, List.mem_cons, List.mem_singleton]
        tauto

/-- `Series.unique` yields distinct values. -/
theorem seenOrder_nodup (l : List String) : (seenOrder l).Nodup :=
  seenOrderAux_nodup l [] List.nodup_nil

/-- `Series.unique` yields exactly the values of the column. -/
theorem mem_seenOrder (l : List String) (a : String) :
    a ∈ seenOrder l ↔ a ∈ l := by
  simpa using mem_seenOrderAux l [] a

/-- The first-seen list has the same value set as the column. -/
theorem seenOrder_toFinset (l : List String) :
    (seenOrder l).toFinset = l.toFinset :=
  Finset.ext fun a => by simp [List.mem_toFinset, mem_seenOrder]

/-- The number of first-seen values is the number of distinct values. -/
theorem seenOrder_length (l : List String) :
    (seenOrder l).length = l.toFinset.card := by
  rw [← seenOrder_toFinset, List.toFinset_card_of_nodup (seenOrder_nodup l)]

/-! ### Facts about the stable insertion sort -/

/-- Insertion produces a permutation. -/
theorem insertBy_perm (lt : α → α → Bool) (x : α) (l : List α) :
    (insertBy lt x l).Perm (x :: l) := by
  induction l with
  | nil => exact List.Perm.refl _
  | cons h t ih =>
      rw [insertBy]
      by_cases hlt : lt x h = true
      · rw [if_pos hlt]
      · rw [if_neg hlt]
        exact (ih.cons h).trans (List.Perm.swap x h t)

/-- The fold of insertions permutes the accumulator and the input. -/
theorem sortBy_perm_aux (lt : α → α → Bool) :
    ∀ l acc : List α,
      (l.foldl (fun acc x => insertBy lt x acc) acc).Perm (acc ++ l) := by
  intro l
  induction l with
  | nil => intro acc; simp
  | cons x xs ih =>
      intro acc
      rw [List.foldl_cons]
      refine (ih (insertBy lt x acc)).trans ?_
      refine (((insertBy_perm lt x acc).append_right xs).trans ?_)
      exact List.perm_middle.symm

/-- Sorting permutes the list. -/
theorem sortBy_perm (lt : α → α → Bool) (l : List α) :
    (sortBy lt l).Perm l := by
  simpa using sortBy_perm_aux lt l []

/-- Inserting into a list sorted by `lt` keeps it sorted, for an asymmetric
transitive comparator. -/
theorem insertBy_pairwise (lt : α → α → Bool)
    (hasymm : ∀ a b, lt a b = true → lt b a = false)
    (htrans : ∀ a b c, lt a b = true → lt b c = true → lt a c = true)
    (x : α) (l : List α) (hl : l.Pairwise (fun a b => lt b a = false)) :
    (insertBy lt x l).Pairwise (fun a b => lt b a = false) := by
  induction l with
  | nil => simp [insertBy]
  | cons h t ih =>
      rcases List.pairwise_cons.mp hl with ⟨hh, ht⟩
      rw [insertBy]
      by_cases hlt : lt x h = true
      · rw [if_pos hlt]
        refine List.pairwise_cons.mpr ⟨?_, hl⟩
        intro y hy
        rcases List.mem_cons.mp hy with rfl | hy
        · exact hasymm x y hlt
        · by_contra hyx
          have hyx' : lt y x = true := by
            cases hxy : lt y x
            · exact absurd hxy hyx
            · rfl
          exact absurd (hh y hy) (by simp [htrans y x h hyx' hlt])
      · rw [if_neg hlt]
        refine List.pairwise_cons.mpr ⟨?_, ih ht⟩
        intro y hy
        rcases List.mem_cons.mp ((insertBy_perm lt x t).mem_iff.mp hy)
          with rfl | hy'
        · cases hxy : lt y h
          · rfl
          · exact absurd hxy hlt
        · exact hh y hy'

/-- The sort is sorted: adjacent-or-later elements never strictly precede
earlier ones. -/
theorem sortBy_pairwise (lt : α → α → Bool)
    (hasymm : ∀ a b, lt a b = true → lt b a = false)
    (htrans : ∀ a b c, lt a b = true → lt b c = true → lt a c = true)
    (l : List α) :
    (sortBy lt l).Pairwise (fun a b => lt b a = false) := by
  have aux : ∀ l acc : List α, acc.Pairwise (fun a b => lt b a = false) →
      (l.foldl (fun acc x => insertBy lt x acc) acc).Pairwise
        (fun a b => lt b a = false) := by
    intro l
    induction l with
    | nil => intro acc h; exact h
    | cons x xs ih =>
        intro acc h
        rw [List.foldl_cons]
        exact ih _ (insertBy_pairwise lt hasymm htrans x acc h)
  exact aux l [] List.Pairwise.nil

/-! ### Aggregation completeness (C6) -/

/-- Amount sum of a cons whose head has a non-null amount. -/
theorem amtSum_cons_some {r : Row} {t : List Row} {v : ℚ}
    (h : r.Effective_Throughput = some v) : amtSum (r :: t) = v + amtSum t := by
  simp [amtSum, optSum, List.filterMap_cons, h]

/-- Amount sum of a cons whose head has a null amount: pandas skips it. -/
theorem amtSum_cons_none {r : Row} {t : List Row}
    (h : r.Effective_Throughput = none) : amtSum (r :: t) = amtSum t := by
  simp [amtSum, optSum, List.filterMap_cons, h]

/-- Summing over a filter by two mutually exclusive predicates splits. -/
theorem amtSum_filter_or (p q : Row → Bool)
    (hexcl : ∀ r, ¬(p r = true ∧ q r = true)) (rows : List Row) :
    amtSum (rows.filter fun r => p r || q r)
      = amtSum (rows.filter p) + amtSum (rows.filter q) := by
  induction rows with
  | nil => simp [amtSum, optSum]
  | cons r t ih =>
      by_cases hp : p r = true
      · have hq : q r = false := by
          cases hq' : q r
          · rfl
          · exact absurd ⟨hp, hq'⟩ (hexcl r)
        rcases hET : r.Effective_Throughput with _ | v
        · simp only [List.filter_cons, hp, hq, Bool.true_or, if_pos,
            Bool.false_eq_true, if_false, amtSum_cons_none hET, ih]
        · simp only [List.filter_cons, hp, hq, Bool.true_or, if_pos,
            Bool.false_eq_true, if_false, amtSum_cons_some hET, ih]
          ring
      · have hp' : p r = false := by
          cases hp'' : p r
          · rfl
          · exact absurd hp'' hp
        by_cases hq : q r = true
        · rcases hET : r.Effective_Throughput with _ | v
          · simp only [List.filter_cons, hp', hq, Bool.false_or, if_pos,
              Bool.false_eq_true, if_false, amtSum_cons_none hET, ih]
          · simp only [List.filter_cons, hp', hq, Bool.false_or, if_pos,
              Bool.false_eq_true, if_false, amtSum_cons_some hET, ih]
            ring
        · have hq' : q r = false := by
            cases hq'' : q r
            · rfl
            · exact absurd hq'' hq
          rcases hET : r.Effective_Throughput with _ | v <;>
            simp only [List.filter_cons, hp', hq', Bool.false_or,
              Bool.false_eq_true, if_false, ih]

/-- Summing the per-zone sums over a duplicate-free key list equals the sum
over the rows whose zone is one of the keys. -/
theorem zoneSum_complete (zs : List String) (hnd : zs.Nodup) (rows : List Row) :
    (zs.map (fun z => amtSum (rows.filter
        (fun r => r.Transmission_Zone == z)))).sum
      = amtSum (rows.filter (fun r => decide (r.Transmission_Zone ∈ zs))) := by
  induction zs with
  | nil =>
      have : rows.filter (fun r => decide (r.Transmission_Zone ∈ ([] : List String))) = [] := by
        simp
      simp [this, amtSum, optSum]
  | cons z zs ih =>
      rcases List.nodup_cons.mp hnd with ⟨hz, hnd'⟩
      have hexcl : ∀ r : Row, ¬((r.Transmission_Zone == z) = true ∧
          (decide (r.Transmission_Zone ∈ zs)) = true) := by
        rintro r ⟨h1, h2⟩
        exact hz (beq_iff_eq.mp h1 ▸ of_decide_eq_true h2)
      have hsplit := amtSum_filter_or (fun r => r.Transmission_Zone == z)
        (fun r => decide (r.Transmission_Zone ∈ zs)) hexcl rows
      have hcongr : rows.filter (fun r => decide (r.Transmission_Zone ∈ z :: zs))
          = rows.filter (fun r => (r.Transmission_Zone == z) ||
              decide (r.Transmission_Zone ∈ zs)) := by
        apply List.filter_congr
        intro a _
        by_cases h1 : a.Transmission_Zone = z <;>
          by_cases h2 : a.Transmission_Zone ∈ zs <;> simp [h1, h2]
      rw [List.map_cons, List.sum_cons, ih hnd', hcongr, hsplit]

/-- C6: the per-region totals of `analyze_country_performance` sum to the
grand total of the amount column — grouping neither loses nor double-counts
any record's amount. -/
theorem zone_sums_complete (rows : List Row) :
    ((country_purchases rows).map Prod.snd).sum = grandTotal rows := by
  have h1 : (country_purchases rows).map Prod.snd
      = (zoneKeys rows).map (zoneSum rows) := by
    simp [country_purchases, List.map_map, Function.comp_def]
  have hnd : (zoneKeys rows).Nodup :=
    (sortBy_perm strLtB _).nodup_iff.mpr
      (seenOrder_nodup (rows.map (·.Transmission_Zone)))
  have h2 := zoneSum_complete (zoneKeys rows) hnd rows
  have hall : ∀ r ∈ rows,
      (decide (r.Transmission_Zone ∈ zoneKeys rows)) = true := by
    intro r hr
    apply decide_eq_true
    exact (sortBy_perm strLtB _).mem_iff.mpr
      ((mem_seenOrder _ _).mpr (List.mem_map.mpr ⟨r, hr, rfl⟩))
  rw [h1]
  calc ((zoneKeys rows).map (zoneSum rows)).sum
      = amtSum (rows.filter (fun r =>
          decide (r.Transmission_Zone ∈ zoneKeys rows))) := h2
    _ = amtSum rows := by rw [List.filter_eq_self.mpr hall]
    _ = grandTotal rows := rfl

end Retail

namespace Retail

/-! ### Null customer ids and per-customer statistics (C10) -/

/-- Dropping the null-customer rows does not change any customer's cohort,
because those rows belong to no customer group. -/
theorem cohortQuarterID_filter_isSome (qm : List String) (rows : List Row)
    (r : Row) :
    cohortQuarterID qm (rows.filter (fun x => x.Receiver_ID.isSome)) r
      = cohortQuarterID qm rows r := by
  rcases h : r.Receiver_ID with _ | cu
  · simp [cohortQuarterID, h]
  · simp only [cohortQuarterID, h]
    rw [List.filter_filter]
    have hf : rows.filter (fun a => (a.Receiver_ID == some cu) &&
          a.Receiver_ID.isSome)
        = rows.filter (fun x => x.Receiver_ID == some cu) := by
      apply List.filter_congr
      intro x _
      rcases hx : x.Receiver_ID with _ | cv <;> simp [hx]
    rw [hf]

/-- Dropping the null-customer rows does not change any record's offset. -/
theorem cohortIndex_filter_isSome (qm : List String) (rows : List Row)
    (r : Row) :
    cohortIndex qm (rows.filter (fun x => x.Receiver_ID.isSome)) r
      = cohortIndex qm rows r := by
  rw [cohortIndex, cohortIndex, cohortQuarterID_filter_isSome]

/-- Each cell of the `(CohortQuarterID, CohortIndex)` grouping consists of
the same records whether or not null-customer rows were dropped first. -/
theorem cellRows_filter_isSome (qm : List String) (rows : List Row) (c : ℕ)
    (i : ℤ) :
    cellRows qm (rows.filter (fun x => x.Receiver_ID.isSome)) c i
      = cellRows qm rows c i := by
  unfold cellRows
  rw [List.filter_congr (fun x _ => by
    rw [cohortQuarterID_filter_isSome, cohortIndex_filter_isSome])]
  rw [List.filter_filter]
  apply List.filter_congr
  intro x _
  rcases hx : x.Receiver_ID with _ | cv
  · simp [@cohortQuarterID_eq_none qm rows x hx]
  · simp [hx]

/-- C10: records with a null customer id take part in no per-customer
statistic — their cohort is undefined, they lie in no retention cell, and
dropping them changes neither any retention cell count nor any customer's
purchase frequency — yet they are counted by the amount aggregates, into
which they contribute alongside the non-null rows. -/
theorem null_customers_excluded (qm : List String) (rows : List Row) :
    (∀ r : Row, r.Receiver_ID = none →
        cohortQuarterID qm rows r = none ∧
        ∀ (c : ℕ) (i : ℤ), r ∉ cellRows qm rows c i) ∧
    (∀ (c : ℕ) (i : ℤ),
        cellCount qm (rows.filter (fun x => x.Receiver_ID.isSome)) c i
          = cellCount qm rows c i) ∧
    (∀ cu : ℕ, customer_freq (rows.filter (fun x => x.Receiver_ID.isSome)) cu
        = customer_freq rows cu) ∧
    (grandTotal rows
        = grandTotal (rows.filter (fun x => x.Receiver_ID.isSome))
          + grandTotal (rows.filter (fun x => x.Receiver_ID == none))) := by
  refine ⟨?_, ?_, ?_, ?_⟩
  · intro r hr
    refine ⟨cohortQuarterID_eq_none hr, ?_⟩
    intro c i hmem
    rcases List.mem_filter.mp hmem with ⟨-, hcond⟩
    rcases (Bool.and_eq_true _ _).mp hcond with ⟨hc, -⟩
    rw [cohortQuarterID_eq_none hr] at hc
    exact absurd (beq_iff_eq.mp hc) (by simp)
  · intro c i
    rw [cellCount, cellCount, cellRows_filter_isSome]
  · intro cu
    rw [customer_freq, customer_freq, List.filter_filter]
    congr 1
    apply List.filter_congr
    intro x _
    rcases hx : x.Receiver_ID with _ | cv <;> simp [hx]
  · have hexcl : ∀ r : Row, ¬(r.Receiver_ID.isSome = true ∧
        (r.Receiver_ID == none) = true) := by
      rintro r ⟨h1, h2⟩
      rw [beq_iff_eq.mp h2] at h1
      exact absurd h1 (by simp)
    have hsplit := amtSum_filter_or (fun x => x.Receiver_ID.isSome)
      (fun x => x.Receiver_ID == none) hexcl rows
    have hall : rows.filter (fun x =>
        x.Receiver_ID.isSome || (x.Receiver_ID == none)) = rows := by
      apply List.filter_eq_self.mpr
      intro x _
      rcases hx : x.Receiver_ID with _ | cv <;> simp [hx]
    show amtSum rows = amtSum (rows.filter (fun x => x.Receiver_ID.isSome))
        + amtSum (rows.filter (fun x => x.Receiver_ID == none))
    rw [← hsplit, hall]

/-- A record with a null customer id, retained in the loaded table. -/
def rowNull : Row := { row1 with Receiver_ID := none }

/-- The worked example extended with a null-customer record. -/
def exampleRowsN : List Row := exampleRows ++ [rowNull]

/-- C10 witness: on the extended example, the null-customer record has an
undefined cohort and lies in no retention cell at (0, 0). -/
theorem null_customers_excluded_witness :
    rowNull.Receiver_ID = none ∧
    cohortQuarterID (quarters_map exampleRowsN) exampleRowsN rowNull = none ∧
    rowNull ∉ cellRows (quarters_map exampleRowsN) exampleRowsN 0 0 :=
  ⟨rfl,
    ((null_customers_excluded (quarters_map exampleRowsN) exampleRowsN).1
      rowNull rfl).1,
    ((null_customers_excluded (quarters_map exampleRowsN) exampleRowsN).1
      rowNull rfl).2 0 0⟩

end Retail

namespace Retail

/-! ### Dense first-seen bucket indices (C9) -/

/-- Index lookup skips a duplicate-free part not containing the key. -/
theorem indexOf_append_of_not_mem {k : String} :
    ∀ {acc : List String}, k ∉ acc → ∀ l : List String,
      List.indexOf k (acc ++ l) = acc.length + List.indexOf k l := by
  intro acc
  induction acc with
  | nil => intro _ l; simp
  | cons a t ih =>
      intro hk l
      have hka : a ≠ k := fun h => hk (h ▸ List.mem_cons_self a t)
      have hkt : k ∉ t := fun h => hk (List.mem_cons_of_mem a h)
      rw [List.cons_append, List.indexOf_cons_ne _ hka, ih hkt l]
      simp only [List.length_cons]
      omega

/-- Unfolding equation of `seenOrderAux` on a cons. -/
theorem seenOrderAux_cons (acc : List String) (k : String) (ks : List String) :
    seenOrderAux acc (k :: ks)
      = seenOrderAux (if k ∈ acc then acc else acc ++ [k]) ks := rfl

/-- Unfolding equation of `seenOrderAux` on nil. -/
theorem seenOrderAux_nil (acc : List String) : seenOrderAux acc [] = acc := rfl

/-- `seenOrderAux` only ever appends to its accumulator. -/
theorem seenOrderAux_extends (l : List String) :
    ∀ acc : List String, ∃ t, seenOrderAux acc l = acc ++ t := by
  induction l with
  | nil => intro acc; exact ⟨[], by simp [seenOrderAux]⟩
  | cons k ks ih =>
      intro acc
      by_cases hk : k ∈ acc
      · obtain ⟨t, ht⟩ := ih acc
        exact ⟨t, by rw [seenOrderAux, if_pos hk, ht]⟩
      · obtain ⟨t, ht⟩ := ih (acc ++ [k])
        exact ⟨k :: t, by rw [seenOrderAux, if_neg hk, ht, List.append_assoc]; rfl⟩

/-- A key's position in the first-seen list is the number of already-seen
values when its first occurrence is processed. -/
theorem indexOf_seenOrderAux {k : String} :
    ∀ l acc : List String, k ∉ acc → k ∈ l →
      List.indexOf k (seenOrderAux acc l)
        = (seenOrderAux acc (l.takeWhile (fun a => a != k))).length := by
  intro l
  induction l with
  | nil => intro acc _ hk; exact absurd hk (List.not_mem_nil k)
  | cons a as ih =>
      intro acc hacc hk
      by_cases hka : k = a
      · subst hka
        have htw : (k :: as).takeWhile (fun a => a != k) = [] := by
          rw [List.takeWhile_cons]
          simp
        rw [htw, seenOrderAux_cons, if_neg hacc, seenOrderAux_nil]
        obtain ⟨t, ht⟩ := seenOrderAux_extends as (acc ++ [k])
        rw [ht, List.append_assoc, indexOf_append_of_not_mem hacc]
        simp
      · have hk' : k ∈ as := by
          rcases List.mem_cons.mp hk with h | h
          · exact absurd h hka
          · exact h
        have hak : a ≠ k := fun h => hka h.symm
        have htw : (a :: as).takeWhile (fun x => x != k)
            = a :: as.takeWhile (fun x => x != k) := by
          rw [List.takeWhile_cons]
          simp [hak]
        by_cases ha : a ∈ acc
        · rw [htw, seenOrderAux_cons, if_pos ha, seenOrderAux_cons, if_pos ha]
          exact ih acc hacc hk'
        · have hacc' : k ∉ acc ++ [a] := by
            intro hm
            rcases List.mem_append.mp hm with hm | hm
            · exact hacc hm
            · exact hka (List.mem_singleton.mp hm)
          rw [htw, seenOrderAux_cons, if_neg ha, seenOrderAux_cons, if_neg ha]
          exact ih (acc ++ [a]) hacc' hk'

/-- On a duplicate-free list, `indexOf` is a bijection from the values onto
the positions. -/
theorem toFinset_image_indexOf :
    ∀ s : List String, s.Nodup →
      s.toFinset.image (fun k => List.indexOf k s) = Finset.range s.length := by
  intro s
  induction s with
  | nil => intro _; simp
  | cons x t ih =>
      intro hnd
      rcases List.nodup_cons.mp hnd with ⟨hx, hnd'⟩
      rw [List.toFinset_cons, Finset.image_insert, List.indexOf_cons_self]
      have hcongr : t.toFinset.image (fun k => List.indexOf k (x :: t))
          = t.toFinset.image (fun k => List.indexOf k t + 1) := by
        apply Finset.image_congr
        intro k hk
        have hk' : k ∈ t := List.mem_toFinset.mp hk
        have hxk : x ≠ k := fun h => hx (h ▸ hk')
        simp only []
        rw [List.indexOf_cons_ne _ hxk]
      have himg : t.toFinset.image (fun k => List.indexOf k t + 1)
          = (t.toFinset.image (fun k => List.indexOf k t)).image (· + 1) := by
        rw [Finset.image_image]
        rfl
      rw [hcongr, himg, ih hnd']
      ext m
      simp only [Finset.mem_insert, Finset.mem_image, Finset.mem_range,
        List.length_cons]
      constructor
      · rintro (rfl | ⟨j, hj, rfl⟩) <;> omega
      · intro hm
        rcases Nat.eq_zero_or_pos m with rfl | hpos
        · exact Or.inl rfl
        · exact Or.inr ⟨m - 1, by omega, by omega⟩

/-- C9: the bucket-to-index map assigns the distinct quarter keys the dense
indices 0..k-1 in first-seen order — it is injective, covers exactly the
quarter keys of the table, maps onto the positions 0..k-1, and a key's index
is the number of distinct keys occurring strictly before its first
occurrence in row order. -/
theorem quarters_map_dense_first_seen (rows : List Row) :
    (quarters_map rows).Nodup ∧
    (∀ k, k ∈ quarters_map rows ↔ k ∈ invoiceQuarters rows) ∧
    (quarters_map rows).length = (invoiceQuarters rows).toFinset.card ∧
    (∀ k ∈ invoiceQuarters rows,
        List.indexOf k (quarters_map rows)
          = ((invoiceQuarters rows).takeWhile
              (fun a => a != k)).toFinset.card) ∧
    (invoiceQuarters rows).toFinset.image
        (fun k => List.indexOf k (quarters_map rows))
      = Finset.range (quarters_map rows).length := by
  refine ⟨seenOrder_nodup _, mem_seenOrder _, seenOrder_length _, ?_, ?_⟩
  · intro k hk
    have h1 := indexOf_seenOrderAux (invoiceQuarters rows) []
      (List.not_mem_nil k) hk
    have h2 := seenOrder_length ((invoiceQuarters rows).takeWhile
      (fun a => a != k))
    rw [quarters_map, seenOrder, h1]
    exact h2
  · rw [show (invoiceQuarters rows).toFinset = (quarters_map rows).toFinset
      from (seenOrder_toFinset _).symm]
    exact toFinset_image_indexOf _ (seenOrder_nodup _)

/-- C9 witness: in the worked example, the key Q2/2010 first occurs after
one distinct key (Q1/2010) and therefore has index 1. -/
theorem quarters_map_dense_first_seen_witness :
    ("Q2/2010" ∈ invoiceQuarters exampleRows) ∧
    List.indexOf "Q2/2010" (quarters_map exampleRows)
      = ((invoiceQuarters exampleRows).takeWhile
          (fun a => a != "Q2/2010")).toFinset.card :=
  ⟨by decide,
    (quarters_map_dense_first_seen exampleRows).2.2.2.1 _ (by decide)⟩

end Retail

namespace Retail

/-! ### Top/bottom-10 lists (C5) -/

/-- Counting two mutually exclusive predicates stays within the length. -/
theorem countP_disjoint_le (p q : α → Bool)
    (hexcl : ∀ a, ¬(p a = true ∧ q a = true)) :
    ∀ l : List α, l.countP p + l.countP q ≤ l.length := by
  intro l
  induction l with
  | nil => simp
  | cons a t ih =>
      rw [List.countP_cons, List.countP_cons, List.length_cons]
      by_cases hp : p a = true <;> by_cases hq : q a = true
      · exact absurd ⟨hp, hq⟩ (hexcl a)
      · simp [hp, hq]
        omega
      · simp [hp, hq]
        omega
      · simp [hp, hq]
        omega

/-- With a member satisfying neither predicate, the two counts leave room
for one more element. -/
theorem countP_disjoint_lt (p q : α → Bool)
    (hexcl : ∀ a, ¬(p a = true ∧ q a = true)) {x : α}
    (hpx : p x = false) (hqx : q x = false) :
    ∀ {l : List α}, x ∈ l → l.countP p + l.countP q + 1 ≤ l.length := by
  intro l
  induction l with
  | nil => intro h; exact absurd h (List.not_mem_nil x)
  | cons a t ih =>
      intro hx
      rw [List.countP_cons, List.countP_cons, List.length_cons]
      rcases List.mem_cons.mp hx with rfl | hx'
      · simp [hpx, hqx]
        have := countP_disjoint_le p q hexcl t
        omega
      · have h1 := ih hx'
        by_cases hp : p a = true <;> by_cases hq : q a = true
        · exact absurd ⟨hp, hq⟩ (hexcl a)
        · simp [hp, hq]
          omega
        · simp [hp, hq]
          omega
        · simp [hp, hq]
          omega

/-- An element of the first `n` entries splits the list with a short front
part. -/
theorem mem_take_split {l : List α} {x : α} {n : ℕ} (h : x ∈ l.take n) :
    ∃ s t, l = s ++ x :: t ∧ s.length < n := by
  obtain ⟨i, hi, hx⟩ := List.getElem_of_mem h
  have hlen : (l.take n).length = min n l.length := List.length_take n l
  have hin : i < n := by omega
  have hil : i < l.length := by omega
  rw [List.getElem_take] at hx
  have hsplit : l = l.take i ++ l[i] :: l.drop (i + 1) := by
    conv_lhs => rw [← List.take_append_drop i l]
    rw [List.drop_eq_getElem_cons hil]
  rw [hx] at hsplit
  exact ⟨l.take i, l.drop (i + 1), hsplit, by rw [List.length_take]; omega⟩

/-- In a pairwise-related list, the pivot of a split relates to everything
after it. -/
theorem pairwise_split_right {R : α → α → Prop} {s t : List α} {x : α}
    (h : (s ++ x :: t).Pairwise R) : ∀ y ∈ t, R x y :=
  (List.pairwise_cons.mp (List.pairwise_append.mp h).2.1).1

/-- C5 amended: when the table has at least 20 distinct regions and the
per-region totals are pairwise distinct, the top-10 and bottom-10 region
lists are disjoint, the top-10 list is sorted in descending order of total
and the bottom-10 list in ascending order.  (Without distinct totals the
lists can overlap, because both `nlargest` and `nsmallest` break ties by
order of appearance.) -/
theorem top_bottom_disjoint_sorted (rows : List Row)
    (h20 : 20 ≤ (rows.map (·.Transmission_Zone)).toFinset.card)
    (hvals : ((country_purchases rows).map Prod.snd).Nodup) :
    (∀ z, z ∈ (top_countries rows).map Prod.fst →
        z ∉ (bottom_countries rows).map Prod.fst) ∧
    List.Pairwise (fun a b : String × ℚ => b.2 ≤ a.2) (top_countries rows) ∧
    List.Pairwise (fun a b : String × ℚ => a.2 ≤ b.2) (bottom_countries rows) := by
  have hzkNodup : (zoneKeys rows).Nodup :=
    (sortBy_perm strLtB _).nodup_iff.mpr (seenOrder_nodup _)
  have hkeysEq : (country_purchases rows).map Prod.fst = zoneKeys rows := by
    simp [country_purchases, List.map_map, Function.comp_def]
  have hkeysNodup : ((country_purchases rows).map Prod.fst).Nodup := by
    rw [hkeysEq]; exact hzkNodup
  have hcpNodup : (country_purchases rows).Nodup := hkeysNodup.of_map
  have hn20 : 20 ≤ (country_purchases rows).length := by
    rw [country_purchases, List.length_map, zoneKeys,
      (sortBy_perm strLtB _).length_eq, seenOrder_length]
    exact h20
  have hasymmD : ∀ a b : String × ℚ,
      (decide (b.2 < a.2)) = true → (decide (a.2 < b.2)) = false := by
    intro a b h
    rw [decide_eq_true_eq] at h
    exact decide_eq_false (lt_asymm h)
  have htransD : ∀ a b c : String × ℚ,
      (decide (b.2 < a.2)) = true → (decide (c.2 < b.2)) = true →
        (decide (c.2 < a.2)) = true := by
    intro a b c h1 h2
    rw [decide_eq_true_eq] at h1 h2
    exact decide_eq_true (lt_trans h2 h1)
  have hasymmA : ∀ a b : String × ℚ,
      (decide (a.2 < b.2)) = true → (decide (b.2 < a.2)) = false := by
    intro a b h
    rw [decide_eq_true_eq] at h
    exact decide_eq_false (lt_asymm h)
  have htransA : ∀ a b c : String × ℚ,
      (decide (a.2 < b.2)) = true → (decide (b.2 < c.2)) = true →
        (decide (a.2 < c.2)) = true := by
    intro a b c h1 h2
    rw [decide_eq_true_eq] at h1 h2
    exact decide_eq_true (lt_trans h1 h2)
  have hdesc : (sortBy (fun a b : String × ℚ => decide (b.2 < a.2))
      (country_purchases rows)).Pairwise (fun a b => b.2 ≤ a.2) := by
    refine (sortBy_pairwise _ hasymmD htransD _).imp ?_
    intro a b h
    exact not_lt.mp (by simpa using h)
  have hasc : (sortBy (fun a b : String × ℚ => decide (a.2 < b.2))
      (country_purchases rows)).Pairwise (fun a b => a.2 ≤ b.2) := by
    refine (sortBy_pairwise _ hasymmA htransA _).imp ?_
    intro a b h
    exact not_lt.mp (by simpa using h)
  refine ⟨?_, List.Pairwise.sublist (List.take_sublist 10 _) hdesc,
    List.Pairwise.sublist (List.take_sublist 10 _) hasc⟩
  intro z hzt hzb
  obtain ⟨p, hpmem, hpz⟩ := List.mem_map.mp hzt
  obtain ⟨q, hqmem, hqz⟩ := List.mem_map.mp hzb
  have hpermD := sortBy_perm (fun a b : String × ℚ => decide (b.2 < a.2))
    (country_purchases rows)
  have hpermA := sortBy_perm (fun a b : String × ℚ => decide (a.2 < b.2))
    (country_purchases rows)
  have hpcp : p ∈ country_purchases rows :=
    hpermD.subset (List.take_sublist 10 _ |>.subset hpmem)
  have hqcp : q ∈ country_purchases rows :=
    hpermA.subset (List.take_sublist 10 _ |>.subset hqmem)
  have hpq : p = q :=
    List.inj_on_of_nodup_map hkeysNodup hpcp hqcp (by rw [hpz, hqz])
  subst hpq
  obtain ⟨s1, t1, hL1, hs1⟩ := mem_take_split hpmem
  obtain ⟨s2, t2, hL2, hs2⟩ := mem_take_split hqmem
  have hL1nodup : (s1 ++ p :: t1).Nodup := by
    rw [← hL1]; exact hpermD.nodup_iff.mpr hcpNodup
  have hL2nodup : (s2 ++ p :: t2).Nodup := by
    rw [← hL2]; exact hpermA.nodup_iff.mpr hcpNodup
  have hpt1 : p ∉ t1 :=
    (List.nodup_cons.mp (List.nodup_append.mp hL1nodup).2.1).1
  have hpt2 : p ∉ t2 :=
    (List.nodup_cons.mp (List.nodup_append.mp hL2nodup).2.1).1
  have ht1lt : ∀ y ∈ t1, y.2 < p.2 := by
    intro y hy
    have hyle : y.2 ≤ p.2 := pairwise_split_right (hL1 ▸ hdesc) y hy
    have hycp : y ∈ country_purchases rows :=
      hpermD.subset (hL1 ▸ (List.mem_append.mpr
        (Or.inr (List.mem_cons_of_mem p hy))))
    have hyne : y ≠ p := fun h => hpt1 (h ▸ hy)
    have : y.2 ≠ p.2 := fun h =>
      hyne (List.inj_on_of_nodup_map hvals hycp hpcp h)
    exact lt_of_le_of_ne hyle this
  have ht2lt : ∀ y ∈ t2, p.2 < y.2 := by
    intro y hy
    have hyle : p.2 ≤ y.2 := pairwise_split_right (hL2 ▸ hasc) y hy
    have hycp : y ∈ country_purchases rows :=
      hpermA.subset (hL2 ▸ (List.mem_append.mpr
        (Or.inr (List.mem_cons_of_mem p hy))))
    have hyne : y ≠ p := fun h => hpt2 (h ▸ hy)
    have : p.2 ≠ y.2 := fun h =>
      hyne (List.inj_on_of_nodup_map hvals hycp hpcp h.symm)
    exact lt_of_le_of_ne hyle this
  have hcount1 : t1.length ≤
      (country_purchases rows).countP (fun y => decide (y.2 < p.2)) := by
    rw [← hpermD.countP_eq, hL1, List.countP_append, List.countP_cons]
    have : t1.countP (fun y => decide (y.2 < p.2)) = t1.length :=
      List.countP_eq_length.mpr (fun y hy => decide_eq_true (ht1lt y hy))
    omega
  have hcount2 : t2.length ≤
      (country_purchases rows).countP (fun y => decide (p.2 < y.2)) := by
    rw [← hpermA.countP_eq, hL2, List.countP_append, List.countP_cons]
    have : t2.countP (fun y => decide (p.2 < y.2)) = t2.length :=
      List.countP_eq_length.mpr (fun y hy => decide_eq_true (ht2lt y hy))
    omega
  have hexcl : ∀ a : String × ℚ, ¬((decide (a.2 < p.2)) = true ∧
      (decide (p.2 < a.2)) = true) := by
    rintro a ⟨h1, h2⟩
    rw [decide_eq_true_eq] at h1 h2
    exact lt_asymm h1 h2
  have hbound := countP_disjoint_lt (fun y => decide (y.2 < p.2))
    (fun y => decide (p.2 < y.2)) hexcl
    (decide_eq_false (lt_irrefl p.2)) (decide_eq_false (lt_irrefl p.2)) hpcp
  have hlen1 : (country_purchases rows).length
      = s1.length + t1.length + 1 := by
    rw [← hpermD.length_eq, hL1, List.length_append, List.length_cons]
    omega
  have hlen2 : (country_purchases rows).length
      = s2.length + t2.length + 1 := by
    rw [← hpermA.length_eq, hL2, List.length_append, List.length_cons]
    omega
  omega

end Retail

namespace Retail

/-- A record in region `z` with amount `v`. -/
def zRow (z : String) (v : ℚ) : Row :=
  { row1 with Transmission_Zone := z, Effective_Throughput := some v }

/-- Twenty regions with identical totals. -/
def tieRows : List Row := [zRow "A" 1, zRow "B" 1, zRow "C" 1, zRow "D" 1, zRow "E" 1, zRow "F" 1, zRow "G" 1, zRow "H" 1, zRow "I" 1, zRow "J" 1, zRow "K" 1, zRow "L" 1, zRow "M" 1, zRow "N" 1, zRow "O" 1, zRow "P" 1, zRow "Q" 1, zRow "R" 1, zRow "S" 1, zRow "T" 1]

/-- Twenty regions with pairwise distinct totals. -/
def distinctRows : List Row := [zRow "A" 1, zRow "B" 2, zRow "C" 3, zRow "D" 4, zRow "E" 5, zRow "F" 6, zRow "G" 7, zRow "H" 8, zRow "I" 9, zRow "J" 10, zRow "K" 11, zRow "L" 12, zRow "M" 13, zRow "N" 14, zRow "O" 15, zRow "P" 16, zRow "Q" 17, zRow "R" 18, zRow "S" 19, zRow "T" 20]

/-- C5 counterexample: with 20 distinct regions of equal totals, both
`nlargest(10)` and `nsmallest(10)` resolve every tie by order of appearance
and return the same ten regions — the top-10 and bottom-10 lists are not
disjoint (region A is in both). -/
theorem top_bottom_overlap_on_ties :
    20 ≤ (tieRows.map (·.Transmission_Zone)).toFinset.card ∧
    "A" ∈ (top_countries tieRows).map Prod.fst ∧
    "A" ∈ (bottom_countries tieRows).map Prod.fst := by
  have hzk : zoneKeys tieRows = ["A", "B", "C", "D", "E", "F", "G", "H", "I", "J", "K", "L", "M", "N", "O", "P", "Q", "R", "S", "T"] := by decide
  have hcp : country_purchases tieRows = [("A", 1), ("B", 1), ("C", 1), ("D", 1), ("E", 1), ("F", 1), ("G", 1), ("H", 1), ("I", 1), ("J", 1), ("K", 1), ("L", 1), ("M", 1), ("N", 1), ("O", 1), ("P", 1), ("Q", 1), ("R", 1), ("S", 1), ("T", 1)] := by
    rw [country_purchases, hzk]
    simp +decide [zoneSum, amtSum, optSum, tieRows, zRow, row1, List.filter_cons,
      List.filterMap_cons, List.sum_cons, List.sum_nil]
  have htop : (top_countries tieRows).map Prod.fst
      = ["A", "B", "C", "D", "E", "F", "G", "H", "I", "J"] := by
    simp only [top_countries, nlargest10]
    rw [hcp]
    norm_num [sortBy, insertBy, List.foldl, List.take]
  have hbot : (bottom_countries tieRows).map Prod.fst
      = ["A", "B", "C", "D", "E", "F", "G", "H", "I", "J"] := by
    simp only [bottom_countries, nsmallest10]
    rw [hcp]
    norm_num [sortBy, insertBy, List.foldl, List.take]
  refine ⟨by decide, ?_, ?_⟩
  · rw [htop]; decide
  · rw [hbot]; decide

/-- C5 witness: twenty regions with pairwise distinct totals satisfy the
hypotheses of the amended theorem, whence disjoint and sorted top/bottom
lists. -/
theorem top_bottom_disjoint_sorted_witness :
    (20 ≤ (distinctRows.map (·.Transmission_Zone)).toFinset.card ∧
      ((country_purchases distinctRows).map Prod.snd).Nodup) ∧
    ((∀ z, z ∈ (top_countries distinctRows).map Prod.fst →
        z ∉ (bottom_countries distinctRows).map Prod.fst) ∧
      List.Pairwise (fun a b : String × ℚ => b.2 ≤ a.2)
        (top_countries distinctRows) ∧
      List.Pairwise (fun a b : String × ℚ => a.2 ≤ b.2)
        (bottom_countries distinctRows)) := by
  have h20 : 20 ≤ (distinctRows.map (·.Transmission_Zone)).toFinset.card := by
    decide
  have hzk : zoneKeys distinctRows = ["A", "B", "C", "D", "E", "F", "G", "H", "I", "J", "K", "L", "M", "N", "O", "P", "Q", "R", "S", "T"] := by decide
  have hcp : country_purchases distinctRows = [("A", 1), ("B", 2), ("C", 3), ("D", 4), ("E", 5), ("F", 6), ("G", 7), ("H", 8), ("I", 9), ("J", 10), ("K", 11), ("L", 12), ("M", 13), ("N", 14), ("O", 15), ("P", 16), ("Q", 17), ("R", 18), ("S", 19), ("T", 20)] := by
    rw [country_purchases, hzk]
    simp +decide [zoneSum, amtSum, optSum, distinctRows, zRow, row1, List.filter_cons,
      List.filterMap_cons, List.sum_cons, List.sum_nil]
  have hvals : ((country_purchases distinctRows).map Prod.snd).Nodup := by
    rw [hcp]
    norm_num
  exact ⟨⟨h20, hvals⟩, top_bottom_disjoint_sorted distinctRows h20 hvals⟩

end Retail
